import Mathlib

/-!
# Verification of the sgit passthrough / prompt-budget core

A shallow embedding, in Lean 4, of the core logic of the `sgit` git wrapper:

* the flag-preserving passthrough reconstruction for the `add`, `commit`,
  `log`, `diff` and `merge` subcommands (files `cmd/add.go`, `cmd/commit.go`,
  `cmd/log.go`, `cmd/diff.go`, `cmd/merge.go`);
* the word-budget token counter (`pkg/solar/tokens.go`);
* the thinking-block stripper and language directive of the LLM client
  (`pkg/solar/client.go`);
* the control-flow skeleton of `runCommit`, `runMergeWithAI` and the
  unknown-command fallback in `cmd/root.go`.

Pure string manipulation is embedded at the character-list level so that all
definitions are executable and all concrete instances can be checked by
`decide`.  Subprocess and HTTP interactions are modelled by explicit
environment records recording the outcome of each external call, and the
functions under verification return traces (git argument vectors issued,
messages printed, exit behaviour) that the theorems constrain.
-/

namespace SGit

/-! ## Flag model

`pflag.Flag` as consumed by the passthrough reconstructors: `Visit` iterates
over exactly the flags that were explicitly set on the command line, exposing
`Name`, `Shorthand`, `Value.Type()` (`"bool"` or not) and `Value.String()`.
A reconstruction therefore takes the list of explicitly-set flags (in `Visit`
order) together with the positional arguments. -/

inductive FlagKind where
  | boolKind
  | valuedKind
deriving DecidableEq, Repr

structure Flag where
  name : String
  shorthand : String
  kind : FlagKind
  value : String
deriving DecidableEq, Repr

/-- Go `cmd/commit.go executeGitCommitPassthrough`: custom flags skipped there. -/
def commitSkip (n : String) : Bool :=
  n == "no-ai" || n == "interactive" || n == "skip-editor" || n == "ai"

/-- Loop body of `executeGitCommitPassthrough`: boolean flags are emitted in
long form when `"true"`, valued flags as `--name=value` when non-empty. -/
def commitEmit (f : Flag) : List String :=
  if commitSkip f.name then []
  else if f.kind == .boolKind && f.value == "true" then ["--" ++ f.name]
  else if f.kind != .boolKind && f.value != "" then ["--" ++ f.name ++ "=" ++ f.value]
  else []

/-- Go `cmd/commit.go executeGitCommitPassthrough`: `["commit"]`, then one
append per visited flag, then the positional arguments. -/
def executeGitCommitPassthroughArgs (flags : List Flag) (args : List String) : List String :=
  (flags.foldl (fun gitArgs f => gitArgs ++ commitEmit f) ["commit"]) ++ args

/-- Go `cmd/add.go executeGitAddPassthrough`: skips `strings.HasSuffix(name, "-ai")`
and `name == "ai"`. -/
def addSkip (n : String) : Bool :=
  "-ai".data.isSuffixOf n.data || n == "ai"

/-- Loop body of `executeGitAddPassthrough`: boolean flags use the
single-character shorthand when present, valued flags are `--name=value`.
Go tests `len(flag.Shorthand) == 1` in bytes; cobra shorthands are single
ASCII letters, for which `String.length` agrees. -/
def addEmit (f : Flag) : List String :=
  if addSkip f.name then []
  else if f.kind == .boolKind && f.value == "true" then
    if f.shorthand != "" && f.shorthand.length == 1 then ["-" ++ f.shorthand]
    else ["--" ++ f.name]
  else if f.kind != .boolKind && f.value != "" then ["--" ++ f.name ++ "=" ++ f.value]
  else []

/-- Go `cmd/add.go executeGitAddPassthrough`. -/
def executeGitAddPassthroughArgs (flags : List Flag) (args : List String) : List String :=
  (flags.foldl (fun gitArgs f => gitArgs ++ addEmit f) ["add"]) ++ args

/-- Go `cmd/log.go executeGitLogPassthrough`: custom flags skipped there. -/
def logSkip (n : String) : Bool :=
  n == "ai-analysis" || n == "ai-timeframe"

/-- Loop body of `executeGitLogPassthrough`: shorthand for booleans, and for
valued flags either `-s value` (two tokens) or `--name=value`. -/
def logEmit (f : Flag) : List String :=
  if logSkip f.name then []
  else if f.kind == .boolKind && f.value == "true" then
    if f.shorthand != "" && f.shorthand.length == 1 then ["-" ++ f.shorthand]
    else ["--" ++ f.name]
  else if f.kind != .boolKind && f.value != "" then
    if f.shorthand != "" && f.shorthand.length == 1 then ["-" ++ f.shorthand, f.value]
    else ["--" ++ f.name ++ "=" ++ f.value]
  else []

/-- Go `cmd/log.go executeGitLogPassthrough`. -/
def executeGitLogPassthroughArgs (flags : List Flag) (args : List String) : List String :=
  (flags.foldl (fun gitArgs f => gitArgs ++ logEmit f) ["log"]) ++ args

/-- Go `cmd/diff.go executeGitDiffPassthrough`: only `no-ai` is custom. -/
def diffSkip (n : String) : Bool :=
  n == "no-ai"

/-- Loop body of `executeGitDiffPassthrough`: shorthand for booleans,
`--name=value` for valued flags. -/
def diffEmit (f : Flag) : List String :=
  if diffSkip f.name then []
  else if f.kind == .boolKind && f.value == "true" then
    if f.shorthand != "" && f.shorthand.length == 1 then ["-" ++ f.shorthand]
    else ["--" ++ f.name]
  else if f.kind != .boolKind && f.value != "" then ["--" ++ f.name ++ "=" ++ f.value]
  else []

/-- Go `cmd/diff.go executeGitDiffPassthrough`. -/
def executeGitDiffPassthroughArgs (flags : List Flag) (args : List String) : List String :=
  (flags.foldl (fun gitArgs f => gitArgs ++ diffEmit f) ["diff"]) ++ args

/-- Go `cmd/merge.go buildMergeArgs`: custom flags skipped there. -/
def mergeSkip (n : String) : Bool :=
  n == "ai-help" || n == "ai-message"

/-- Loop body of `buildMergeArgs`: same shape as the log loop. -/
def mergeEmit (f : Flag) : List String :=
  if mergeSkip f.name then []
  else if f.kind == .boolKind && f.value == "true" then
    if f.shorthand != "" && f.shorthand.length == 1 then ["-" ++ f.shorthand]
    else ["--" ++ f.name]
  else if f.kind != .boolKind && f.value != "" then
    if f.shorthand != "" && f.shorthand.length == 1 then ["-" ++ f.shorthand, f.value]
    else ["--" ++ f.name ++ "=" ++ f.value]
  else []

/-- Go `cmd/merge.go buildMergeArgs` (used both by `executeGitMergePassthrough`
and by the AI merge attempt). -/
def buildMergeArgs (flags : List Flag) (args : List String) : List String :=
  (flags.foldl (fun gitArgs f => gitArgs ++ mergeEmit f) ["merge"]) ++ args

/-- Go `cmd/commit.go executeGitCommitWithFlags`: additionally skips `message`
(the AI message supersedes it). -/
def commitWithFlagsSkip (n : String) : Bool :=
  commitSkip n || n == "message"

/-- Loop body of `executeGitCommitWithFlags` (long forms only, like the
commit passthrough). -/
def commitWithFlagsEmit (f : Flag) : List String :=
  if commitWithFlagsSkip f.name then []
  else if f.kind == .boolKind && f.value == "true" then ["--" ++ f.name]
  else if f.kind != .boolKind && f.value != "" then ["--" ++ f.name ++ "=" ++ f.value]
  else []

/-- Go `cmd/commit.go executeGitCommitWithFlags`: the final git commit of the AI
path, `["commit", "-m", message]` plus the forwarded user flags. -/
def executeGitCommitWithFlagsArgs (message : String) (flags : List Flag) : List String :=
  flags.foldl (fun gitArgs f => gitArgs ++ commitWithFlagsEmit f) ["commit", "-m", message]

/-! ## Token budgeter (`pkg/solar/tokens.go`)

Go's `strings.Fields` splits on maximal runs of `unicode.IsSpace` characters.
Word splitting is embedded at the character-list level (`String.data`) so that
everything is executable and provable by structural induction. -/

/-- Go `unicode.IsSpace`: the Unicode `White_Space` property (the full rune set
tested by Go). -/
def goIsSpace (c : Char) : Bool :=
  c == ' ' || c == '\t' || c == '\n' || c == '\x0b' || c == '\x0c' || c == '\r' ||
  c == '\u0085' || c == '\u00A0' || c == '\u1680' ||
  ('\u2000' ≤ c && c ≤ '\u200A') || c == '\u2028' || c == '\u2029' ||
  c == '\u202F' || c == '\u205F' || c == '\u3000'

/-- Accumulator-based word splitter: `acc` holds the (reversed) characters of
the word currently being read. `wordsAux [] s` is `strings.Fields` on `s`. -/
def wordsAux (acc : List Char) : List Char → List (List Char)
  | [] => if acc.isEmpty then [] else [acc.reverse]
  | c :: cs =>
    if goIsSpace c then
      if acc.isEmpty then wordsAux [] cs else acc.reverse :: wordsAux [] cs
    else wordsAux (c :: acc) cs

/-- Go `strings.Fields`. -/
def fields (s : String) : List String :=
  (wordsAux [] s.data).map (fun w => ⟨w⟩)

/-- Go `tokens.go CountWords`: `len(strings.Fields(text))`. -/
def CountWords (text : String) : ℕ :=
  (fields text).length

/-- Go `strings.Join(words, " ")`. -/
def joinSpace : List String → String
  | [] => ""
  | [w] => w
  | w :: ws => w ++ " " ++ joinSpace ws

/-- The fixed truncation marker appended by `TruncateToWordLimit`. -/
def truncationMarker : String := "\n\n[... truncated to stay within token limit ...]"

/-- Go `tokens.go TruncateToWordLimit`. -/
def TruncateToWordLimit (text : String) (maxWords : ℕ) : String × ℕ :=
  if text = "" then ("", 0)
  else
    let words := fields text
    if words.length ≤ maxWords then (text, words.length)
    else
      let truncatedWords := words.take maxWords
      let truncatedText := joinSpace truncatedWords ++ truncationMarker
      (truncatedText, maxWords)

/-- Go `tokens.go MaxInputWords` (the configured total word budget). -/
def MaxInputWords : ℕ := 27000

/-- Go `tokens.go SplitContent`.  The two allocation products
`int(float64(remainingWords) * 0.6)` and `int(float64(remainingWords) * 0.25)`
are embedded as `3 * n / 5` and `n / 4`: `0.25` is exact in binary64, and for
every `n ≤ 27000` the correctly-rounded binary64 product `n * 0.6` truncates
to `⌊3n/5⌋` (the rounding error is below `3·10⁻¹²`, and whenever `3n/5` is an
integer the product rounds back to exactly that integer), so the embedding
agrees with the source on the whole domain `remainingWords ≤ MaxInputWords`. -/
def SplitContent (diff branch recentCommits fileList : String) :
    String × String × String × String × ℕ :=
  let diffWords := CountWords diff
  let branchWords := CountWords branch
  let recentCommitsWords := CountWords recentCommits
  let fileListWords := CountWords fileList
  let totalWords := diffWords + branchWords + recentCommitsWords + fileListWords
  if totalWords ≤ MaxInputWords then
    (diff, branch, recentCommits, fileList, totalWords)
  else
    let remainingWords := MaxInputWords
    let (branchOut, remainingWords) :=
      if branchWords < remainingWords then (branch, remainingWords - branchWords)
      else ((TruncateToWordLimit branch (remainingWords / 4)).1,
            remainingWords - remainingWords / 4)
    let diffAllocation := 3 * remainingWords / 5
    let fileListAllocation := remainingWords / 4
    let recentCommitsAllocation := remainingWords - diffAllocation - fileListAllocation
    let (truncatedDiff, actualDiffWords) := TruncateToWordLimit diff diffAllocation
    let (truncatedFileList, actualFileListWords) :=
      TruncateToWordLimit fileList fileListAllocation
    let (truncatedRecentCommits, actualRecentCommitsWords) :=
      TruncateToWordLimit recentCommits recentCommitsAllocation
    let actualTotal :=
      actualDiffWords + branchWords + actualRecentCommitsWords + actualFileListWords
    (truncatedDiff, branchOut, truncatedRecentCommits, truncatedFileList, actualTotal)

/-- The number of words of *original* content retained across the four
sections returned by `SplitContent`: same branch structure as `SplitContent`,
except that in the branch-overflow case it counts the words the truncated
branch actually keeps (`TruncateToWordLimit`'s reported count) where the
source's `actualTotal` keeps using the pre-truncation `branchWords`. -/
def SplitContentKept (diff branch recentCommits fileList : String) : ℕ :=
  let diffWords := CountWords diff
  let branchWords := CountWords branch
  let recentCommitsWords := CountWords recentCommits
  let fileListWords := CountWords fileList
  let totalWords := diffWords + branchWords + recentCommitsWords + fileListWords
  if totalWords ≤ MaxInputWords then totalWords
  else
    let remainingWords := MaxInputWords
    let (keptBranchWords, remainingWords) :=
      if branchWords < remainingWords then (branchWords, remainingWords - branchWords)
      else ((TruncateToWordLimit branch (remainingWords / 4)).2,
            remainingWords - remainingWords / 4)
    let diffAllocation := 3 * remainingWords / 5
    let fileListAllocation := remainingWords / 4
    let recentCommitsAllocation := remainingWords - diffAllocation - fileListAllocation
    (TruncateToWordLimit diff diffAllocation).2 + keptBranchWords +
      (TruncateToWordLimit recentCommits recentCommitsAllocation).2 +
      (TruncateToWordLimit fileList fileListAllocation).2

/-- Character-level image of `joinSpace` (`strings.Join(_, " ")`). -/
def joinChars : List (List Char) → List Char
  | [] => []
  | [w] => w
  | w :: ws => w ++ ' ' :: joinChars ws

/-! ## Thinking-block stripping (`pkg/solar/client.go cleanResponse`) -/

/-- Go `strings.Index`: position of the first occurrence of `pat`, `none` for
Go's `-1`.  Positions are rune counts rather than Go's byte offsets; they are
only ever used to slice the same list, where the two coincide. -/
def findIdx (pat : List Char) : List Char → Option ℕ
  | [] => if pat.isPrefixOf ([] : List Char) then some 0 else none
  | c :: cs => if pat.isPrefixOf (c :: cs) then some 0 else (findIdx pat cs).map (· + 1)

/-- The fixed opening delimiter of a thinking block. -/
def openTag : List Char := "<think>".data

/-- The fixed closing delimiter of a thinking block. -/
def closeTag : List Char := "</think>".data

/-- The removal loop of `cleanResponse`: find the first `<think>`, find the
first `</think>` at or after it, splice both out together with the text
between them, and restart; stop when either delimiter is missing. -/
def cleanLoop (s : List Char) : List Char :=
  match h1 : findIdx openTag s with
  | none => s
  | some start =>
    match h2 : findIdx closeTag (s.drop start) with
    | none => s
    | some idx => cleanLoop (s.take start ++ s.drop (start + idx + closeTag.length))
termination_by s.length
decreasing_by
  have key : ∀ (pat t : List Char) (i : ℕ), findIdx pat t = some i →
      i + pat.length ≤ t.length := by
    intro pat t
    induction t with
    | nil =>
      intro i hi
      unfold findIdx at hi
      by_cases hp : pat.isPrefixOf ([] : List Char)
      · simp [hp] at hi
        have : pat = [] := List.prefix_nil.mp (List.isPrefixOf_iff_prefix.mp hp)
        simp [this, ← hi]
      · simp [hp] at hi
    | cons c cs ih =>
      intro i hi
      unfold findIdx at hi
      by_cases hp : pat.isPrefixOf (c :: cs)
      · simp [hp] at hi
        have := (List.isPrefixOf_iff_prefix.mp hp).length_le
        simp [← hi]
        simpa using this
      · simp [hp] at hi
        rcases hi with ⟨j, hj, rfl⟩
        have := ih j hj
        simp
        omega
  have hopen : openTag.length = 7 := rfl
  have hclosel : closeTag.length = 8 := rfl
  have hstart := key openTag s start h1
  have hclose := key closeTag (s.drop start) idx h2
  have hlen : (s.drop start).length = s.length - start := List.length_drop start s
  simp only [List.length_append, List.length_take, List.length_drop]
  omega

/-- Specification predicate: no complete think-block remains in `s` — every
occurrence of the closing delimiter lies strictly before every occurrence of
the opening delimiter (this is exactly the state in which the removal loop
stops). -/
def noThinkPair (s : List Char) : Prop :=
  ∀ i j, openTag <+: s.drop i → closeTag <+: s.drop j → j < i

/-- Go `strings.TrimSpace`, left half: drop leading whitespace. -/
def trimLead (l : List Char) : List Char := l.dropWhile goIsSpace

/-- Go `strings.TrimSpace`, right half: drop trailing whitespace. -/
def trimTrail (l : List Char) : List Char := (l.reverse.dropWhile goIsSpace).reverse

/-- Go `strings.TrimSpace` on character lists. -/
def trimChars (l : List Char) : List Char := trimTrail (trimLead l)

/-- Go `strings.TrimSpace`. -/
def trimSpace (s : String) : String := ⟨trimChars s.data⟩

/-- Go `pkg/solar/client.go cleanResponse`: remove `<think>…</think>` blocks,
then trim surrounding whitespace. -/
def cleanResponse (content : String) : String := ⟨trimChars (cleanLoop content.data)⟩

/-- Go `strings.Contains(s, pat)` (`strings.Index(s, pat) >= 0`). -/
def containsSubstr (s pat : String) : Bool := (findIdx pat.data s.data).isSome

/-! ## Conflict-list parsing (`cmd/merge.go getMergeConflicts`) -/

/-- Go `strings.Split` for a single-character separator: accumulator holds the
(reversed) current fragment; empty fragments are kept, as in Go. -/
def splitSepAux (sep : Char) (acc : List Char) : List Char → List (List Char)
  | [] => [acc.reverse]
  | c :: cs =>
    if c == sep then acc.reverse :: splitSepAux sep [] cs
    else splitSepAux sep (c :: acc) cs

/-- Go `strings.Split(s, "\n")`. -/
def splitNewline (s : String) : List String :=
  (splitSepAux '\n' [] s.data).map (fun w => ⟨w⟩)

/-- Go `cmd/merge.go getMergeConflicts`, parsing step: split the trimmed captured
output of `git diff --name-only --diff-filter=U` on newlines; a single empty
fragment means no unmerged paths. -/
def parseConflictFiles (out : String) : List String :=
  match splitNewline (trimSpace out) with
  | [f] => if f = "" then [] else [f]
  | files => files

/-- Go `strings.Join(files, "\n")` (the conflict info handed to the LLM). -/
def joinNewline : List String → String
  | [] => ""
  | [w] => w
  | w :: ws => w ++ "\n" ++ joinNewline ws

/-! ## Language handling (`cmd/root.go`, `pkg/solar/client.go`) -/

/-- Go `cmd/root.go isValidLanguageCode` (the `validCodes` map). -/
def isValidLanguageCode (code : String) : Bool :=
  code == "en" || code == "ko" || code == "ja" || code == "zh" ||
  code == "es" || code == "fr" || code == "de"

/-- Go `strings.ToLower(strings.TrimSpace(x))` as applied by
`getEffectiveLanguage` (ASCII lowering; the supported codes are ASCII). -/
def toLowerTrim (s : String) : String := ⟨(trimChars s.data).map Char.toLower⟩

/-- Go `cmd/root.go getEffectiveLanguage`, with its observable side effect made
explicit: returns the effective language together with whether the
invalid-code warning was printed to stderr.  The command-line flag takes
precedence over the config-file setting; only the flag branch warns. -/
def getEffectiveLanguage (langFlag configLang : String) : String × Bool :=
  if langFlag ≠ "" then
    let lang := toLowerTrim langFlag
    if isValidLanguageCode lang then (lang, false) else ("en", true)
  else if configLang ≠ "" then
    let lang := toLowerTrim configLang
    if isValidLanguageCode lang then (lang, false) else ("en", false)
  else ("en", false)

/-- Go `pkg/solar/client.go addLanguageInstruction`: the `languageNames` map. -/
def languageNames (code : String) : Option String :=
  if code == "ko" then some "Korean (한국어)"
  else if code == "ja" then some "Japanese (日本語)"
  else if code == "zh" then some "Chinese (中文)"
  else if code == "es" then some "Spanish (Español)"
  else if code == "fr" then some "French (Français)"
  else if code == "de" then some "German (Deutsch)"
  else none

/-- The `fmt.Sprintf` template of `addLanguageInstruction`. -/
def languageDirective (languageName : String) : String :=
  "IMPORTANT: Please respond in " ++ languageName ++
    ". All explanations, commit messages, summaries, and analysis should be written in " ++
    languageName ++ ".\n\n"

/-- Go `pkg/solar/client.go addLanguageInstruction`: every prompt assembled by
the client's generation methods is passed through this wrapper. -/
def addLanguageInstruction (language prompt : String) : String :=
  if language = "" ∨ language = "en" then prompt
  else
    let languageName := (languageNames language).getD language
    languageDirective languageName ++ prompt

/-! ## Command router models

Control-flow skeletons of `runCommit`, `runMergeWithAI` and `Execute`,
embedded as functions from an environment record (the outcome of each
external interaction: subprocess exit codes, captured outputs, configuration
state) to a trace (git argument vectors issued, messages printed, terminal
outcome). -/

/-- Environment of one `sgit commit` invocation (`cmd/commit.go runCommit`).
`flags` is the list of explicitly-set flags (in `Visit` order); `allChanged`
and `allValue` are `cmd.Flags().Changed("all")` and `GetBool("all")`;
`diffCachedQuietExit` is the exit code of `git diff --cached --quiet`
(`none` when the subprocess could not run at all). -/
structure CommitEnv where
  isRepo : Bool
  message : String
  noAI : Bool
  flags : List Flag
  args : List String
  allChanged : Bool
  allValue : Bool
  stageOk : Bool
  passthroughOk : Bool
  diffCachedQuietExit : Option ℕ

/-- Terminal state of the modelled part of `runCommit`.  `aiGenerate` marks
the point where the AI path proceeds to configuration checks, context
gathering and the LLM request. -/
inductive CommitOutcome where
  | notRepoError
  | stageError
  | passthrough (gitArgs : List String) (delegateOk : Bool)
  | changesCheckError
  | nothingToCommit
  | aiGenerate
deriving DecidableEq, Repr

/-- Trace of one modelled `runCommit`: the staging calls issued before the
AI-versus-passthrough decision, the messages printed, and the outcome. -/
structure CommitRun where
  stagingCalls : List (List String)
  prints : List String
  outcome : CommitOutcome
deriving DecidableEq, Repr

/-- Go `cmd/commit.go runCommit`, up to the AI-versus-passthrough decision and
the staged-changes precondition: repository check; `-a` staging via
`git add -u`; passthrough when `-m` was given or `--no-ai` set; otherwise
`hasUncommittedChanges` (`git diff --cached --quiet`, nonzero exit means
staged changes exist) decides between the nothing-to-commit exit and the AI
generation path. -/
def runCommitModel (env : CommitEnv) : CommitRun :=
  if !env.isRepo then ⟨[], [], .notRepoError⟩
  else
    let staging := env.allChanged && env.allValue
    let stagingCalls := if staging then [["add", "-u"]] else []
    let stagingPrints :=
      if staging then ["Staging all modified and deleted files..."] else []
    if staging && !env.stageOk then ⟨stagingCalls, stagingPrints, .stageError⟩
    else if env.message ≠ "" ∨ env.noAI then
      ⟨stagingCalls, stagingPrints,
        .passthrough (executeGitCommitPassthroughArgs env.flags env.args) env.passthroughOk⟩
    else
      match env.diffCachedQuietExit with
      | none => ⟨stagingCalls, stagingPrints, .changesCheckError⟩
      | some code =>
        if code ≠ 0 then ⟨stagingCalls, stagingPrints, .aiGenerate⟩
        else ⟨stagingCalls, stagingPrints ++ ["No changes to commit"], .nothingToCommit⟩

/-- Whether an outcome's continuation issues the LLM HTTP request: only the
AI generation path does (the client is constructed and called after the
staged-changes check succeeds). -/
def commitIssuesHttp : CommitOutcome → Bool
  | .aiGenerate => true
  | _ => false

/-- Wrapper exit code where `runCommit` itself decides it (the cobra `Run`
handler exits 1 when `runCommit` errors, 0 otherwise); `none` for
`aiGenerate`, whose exit is decided by the rest of the AI flow. -/
def commitExitCode : CommitOutcome → Option ℕ
  | .notRepoError => some 1
  | .stageError => some 1
  | .changesCheckError => some 1
  | .passthrough _ ok => some (if ok then 0 else 1)
  | .nothingToCommit => some 0
  | .aiGenerate => none

/-- Environment of one `runMergeWithAI` invocation (`cmd/merge.go`):
configuration state, parsed flags and positionals, the current branch, the
result of the `--no-commit` merge attempt, the captured output of the
unmerged-paths query (`none` when that query itself failed), and the LLM
results. -/
structure MergeEnv where
  configOk : Bool
  flags : List Flag
  args : List String
  currentBranch : String
  mergeOk : Bool
  conflictQueryOut : Option String
  aiHelp : Bool
  aiMessage : Bool
  aiHelpResponse : Option String
  aiMergeMessage : Option String

/-- Trace of one modelled `runMergeWithAI`: git argument vectors issued in
order, messages printed, the collected conflict list, the conflict info
forwarded to the LLM (when AI help was requested), and the returned error. -/
structure MergeRun where
  gitCalls : List (List String)
  prints : List String
  conflictsCollected : List String
  httpConflictPrompt : Option String
  err : Option String
deriving DecidableEq, Repr

/-- The unmerged-paths query of `getMergeConflicts`. -/
def conflictQueryCall : List String := ["diff", "--name-only", "--diff-filter=U"]

/-- The instructional message printed when conflicts are detected. -/
def mergeInstructions : List String :=
  ["\nPlease resolve conflicts manually and then:",
   "  git add <resolved-files>",
   "  sgit merge --continue"]

/-- Go `cmd/merge.go runMergeWithAI`: configuration check; require a branch
argument; query the current branch; attempt the merge with `--no-commit`;
on failure query the unmerged paths, and when some exist print guidance
(AI guidance first when `--ai-help` is set) and return `nil`; on a clean
attempt finish with `git commit` (AI message when `--ai-message` is set). -/
def runMergeWithAIModel (env : MergeEnv) : MergeRun :=
  if !env.configOk then ⟨[], [], [], none, some "configuration required"⟩
  else
    match env.args with
    | [] => ⟨[], [], [], none, some "no branch specified for merge"⟩
    | sourceBranch :: _ =>
      let attemptPrint :=
        "Attempting to merge " ++ sourceBranch ++ " into " ++ env.currentBranch ++ "..."
      let mergeArgs := buildMergeArgs env.flags env.args ++ ["--no-commit"]
      let baseCalls := [["branch", "--show-current"], mergeArgs]
      if env.mergeOk then
        if env.aiMessage then
          let logCall :=
            ["log", "--oneline", "--no-merges",
             env.currentBranch ++ ".." ++ sourceBranch]
          match env.aiMergeMessage with
          | none =>
            ⟨baseCalls ++ [logCall],
             [attemptPrint, "Generating AI merge commit message..."],
             [], none, some "error generating merge message"⟩
          | some msg =>
            ⟨baseCalls ++ [logCall, ["commit", "-m", msg]],
             [attemptPrint, "Generating AI merge commit message...",
              "Generated merge message:\n" ++ msg],
             [], none, none⟩
        else ⟨baseCalls ++ [["commit"]], [attemptPrint], [], none, none⟩
      else
        match env.conflictQueryOut with
        | none =>
          ⟨baseCalls ++ [conflictQueryCall], [attemptPrint], [], none,
           some "merge failed"⟩
        | some out =>
          let conflictFiles := parseConflictFiles out
          if conflictFiles.length > 0 then
            let helpPrompt :=
              if env.aiHelp then some (joinNewline conflictFiles) else none
            let helpPrints :=
              if env.aiHelp then
                match env.aiHelpResponse with
                | some help =>
                  ["Getting AI assistance for conflict resolution...",
                   "\n=== AI MERGE CONFLICT ASSISTANCE ===", help, ""]
                | none =>
                  ["Getting AI assistance for conflict resolution...",
                   "Warning: Could not get AI assistance"]
              else []
            ⟨baseCalls ++ [conflictQueryCall],
             [attemptPrint, "\n🚨 Merge conflicts detected!"] ++ helpPrints ++
               mergeInstructions,
             conflictFiles, helpPrompt, none⟩
          else
            ⟨baseCalls ++ [conflictQueryCall], [attemptPrint], [], none,
             some "merge failed"⟩

/-! ## Unknown-command fallback (`cmd/root.go Execute`) -/

/-- Environment of one wrapper invocation: the error `rootCmd.Execute()`
returned (as its message), the full `os.Args`, and the delegate `git`
subprocess (whether it could be started, and its exit code as a function of
the forwarded argument vector). -/
structure ExecuteEnv where
  parseError : Option String
  osArgs : List String
  delegateRuns : Bool
  delegateExit : List String → ℕ

/-- Observable result of `Execute`: the argument vector forwarded to the
delegate (if any) and the wrapper process's exit code. -/
structure ExecOutcome where
  forwarded : Option (List String)
  exit : ℕ

/-- Go `cmd/root.go Execute`: on an `unknown command` parse error forward
`os.Args[1:]` verbatim to `git` and adopt its exit code (0 on a clean run,
the `ExitError` code otherwise, 1 when the subprocess could not start);
any other error prints a message and exits 1. -/
def executeModel (env : ExecuteEnv) : ExecOutcome :=
  match env.parseError with
  | none => ⟨none, 0⟩
  | some msg =>
    if containsSubstr msg "unknown command" then
      match env.osArgs with
      | [] => ⟨none, 1⟩
      | _ :: rest =>
        if rest.length > 0 then
          if env.delegateRuns then ⟨some rest, env.delegateExit rest⟩
          else ⟨some rest, 1⟩
        else ⟨none, 1⟩
    else ⟨none, 1⟩

/-! ## Theorems -/

theorem foldl_append_emit (emit : Flag → List String) :
    ∀ (flags : List Flag) (init : List String),
      flags.foldl (fun acc f => acc ++ emit f) init = init ++ flags.flatMap emit := by
  intro flags
  induction flags with
  | nil => intro init; simp
  | cons f fs ih =>
    intro init
    simp [List.foldl_cons, ih, List.flatMap_cons, List.append_assoc]


theorem string_mk_data (s : String) : (⟨s.data⟩ : String) = s := rfl


theorem joinSpace_data : ∀ ws : List String,
    (joinSpace ws).data = joinChars (ws.map String.data)
  | [] => rfl
  | [_] => rfl
  | w :: v :: ws => by
    have ih := joinSpace_data (v :: ws)
    simp only [joinSpace, joinChars, List.map_cons]
    rw [String.data_append, String.data_append, ih]
    simp [joinChars]


theorem wordsAux_nil (acc : List Char) :
    wordsAux acc [] = if acc.isEmpty then [] else [acc.reverse] := rfl


theorem wordsAux_cons (acc : List Char) (c : Char) (cs : List Char) :
    wordsAux acc (c :: cs) =
      if goIsSpace c then
        if acc.isEmpty then wordsAux [] cs else acc.reverse :: wordsAux [] cs
      else wordsAux (c :: acc) cs := rfl


/-- Every word produced by the splitter is nonempty and whitespace-free
(provided the running accumulator is whitespace-free). -/
theorem wordsAux_mem (l : List Char) : ∀ (acc : List Char),
    (∀ c ∈ acc, goIsSpace c = false) →
    ∀ w ∈ wordsAux acc l, w ≠ [] ∧ ∀ c ∈ w, goIsSpace c = false := by
  induction l with
  | nil =>
    intro acc hacc w hw
    rw [wordsAux_nil] at hw
    by_cases h : acc.isEmpty
    · simp [h] at hw
    · simp [h] at hw
      subst hw
      refine ⟨by simpa [List.isEmpty_iff] using h, ?_⟩
      intro c hc
      exact hacc c (List.mem_reverse.mp hc)
  | cons c cs ih =>
    intro acc hacc w hw
    rw [wordsAux_cons] at hw
    by_cases hs : goIsSpace c
    · simp only [hs, if_true] at hw
      by_cases he : acc.isEmpty
      · simp only [he, if_true] at hw
        exact ih [] (by simp) w hw
      · simp only [he, if_false] at hw
        rcases List.mem_cons.mp hw with rfl | hw
        · refine ⟨by simpa [List.isEmpty_iff] using he, ?_⟩
          intro x hx
          exact hacc x (List.mem_reverse.mp hx)
        · exact ih [] (by simp) w hw
    · simp only [hs, if_false] at hw
      refine ih (c :: acc) ?_ w hw
      intro x hx
      rcases List.mem_cons.mp hx with rfl | hx
      · simpa using hs
      · exact hacc x hx


/-- Reading a whitespace-free block accumulates it entirely. -/
theorem wordsAux_word_run : ∀ (w acc rest : List Char),
    (∀ c ∈ w, goIsSpace c = false) →
    wordsAux acc (w ++ rest) = wordsAux (w.reverse ++ acc) rest := by
  intro w
  induction w with
  | nil => intro acc rest _; simp
  | cons c cs ih =>
    intro acc rest h
    have hc : goIsSpace c = false := h c (by simp)
    rw [List.cons_append, wordsAux_cons, hc]
    simp only [Bool.false_eq_true, if_false]
    rw [ih (c :: acc) rest (fun x hx => h x (List.mem_cons_of_mem c hx))]
    simp [List.append_assoc]


/-- Splitting a space-joined word list followed by a tail that is empty or
starts with whitespace recovers exactly the word list. -/
theorem wordsAux_join (rest : List Char)
    (hrest : rest = [] ∨ ∃ r rs, rest = r :: rs ∧ goIsSpace r = true) :
    ∀ ws : List (List Char),
      (∀ w ∈ ws, w ≠ [] ∧ ∀ c ∈ w, goIsSpace c = false) →
      wordsAux [] (joinChars ws ++ rest) = ws ++ wordsAux [] rest := by
  intro ws
  induction ws with
  | nil => intro _; simp [joinChars]
  | cons w ws ih =>
    intro h
    have hw := h w (by simp)
    have hwe : w.reverse.isEmpty = false := by
      rcases List.exists_cons_of_ne_nil hw.1 with ⟨a, as, rfl⟩
      simp
    cases ws with
    | nil =>
      simp only [joinChars]
      rw [wordsAux_word_run w [] rest hw.2, List.append_nil]
      rcases hrest with rfl | ⟨r, rs, rfl, hr⟩
      · rw [wordsAux_nil, wordsAux_nil]
        simp [hwe]
      · rw [wordsAux_cons, wordsAux_cons, hr]
        simp [hwe]
    | cons v vs =>
      simp only [joinChars, List.cons_append, List.append_assoc]
      rw [wordsAux_word_run w [] _ hw.2, List.append_nil]
      rw [show (' ' :: (joinChars (v :: vs) ++ rest)) =
            ' ' :: (joinChars (v :: vs) ++ rest) from rfl]
      rw [wordsAux_cons]
      have hsp : goIsSpace ' ' = true := rfl
      rw [hsp]
      simp only [if_true, hwe, if_false, List.reverse_reverse]
      rw [ih (fun u hu => h u (List.mem_cons_of_mem w hu))]
      simp


/-- Go `TruncateToWordLimit` reports `min (CountWords text) maxWords` words kept. -/
theorem truncate_snd (text : String) (maxWords : ℕ) :
    (TruncateToWordLimit text maxWords).2 = min (CountWords text) maxWords := by
  unfold TruncateToWordLimit CountWords
  by_cases h : text = ""
  · subst h
    simp [fields, wordsAux]
  · simp only [h, if_neg, ite_false]
    by_cases hl : (fields text).length ≤ maxWords
    · simp [hl, Nat.min_eq_left hl]
    · simp [hl, Nat.min_eq_right (Nat.le_of_not_le hl)]


/-! ### Substring search -/

theorem findIdx_none (pat : List Char) : ∀ s : List Char,
    findIdx pat s = none → ∀ i, ¬ pat <+: s.drop i := by
  intro s
  induction s with
  | nil =>
    intro h i
    unfold findIdx at h
    by_cases hp : pat.isPrefixOf ([] : List Char)
    · simp [hp] at h
    · simpa [List.isPrefixOf_iff_prefix, List.drop_nil] using hp
  | cons c cs ih =>
    intro h i
    unfold findIdx at h
    by_cases hp : pat.isPrefixOf (c :: cs)
    · simp [hp] at h
    · simp [hp] at h
      cases i with
      | zero => simpa [List.isPrefixOf_iff_prefix] using hp
      | succ j => exact ih h j

theorem findIdx_some (pat : List Char) : ∀ (s : List Char) (i : ℕ),
    findIdx pat s = some i →
    pat <+: s.drop i ∧ ∀ j < i, ¬ pat <+: s.drop j := by
  intro s
  induction s with
  | nil =>
    intro i h
    unfold findIdx at h
    by_cases hp : pat.isPrefixOf ([] : List Char)
    · simp [hp] at h
      refine ⟨?_, by omega⟩
      simpa [← h, List.isPrefixOf_iff_prefix] using hp
    · simp [hp] at h
  | cons c cs ih =>
    intro i h
    unfold findIdx at h
    by_cases hp : pat.isPrefixOf (c :: cs)
    · simp [hp] at h
      refine ⟨?_, by omega⟩
      simpa [← h, List.isPrefixOf_iff_prefix] using hp
    · simp [hp] at h
      rcases h with ⟨j, hj, rfl⟩
      obtain ⟨hpre, hmin⟩ := ih j hj
      refine ⟨by simpa using hpre, ?_⟩
      intro k hk
      cases k with
      | zero => simpa [List.isPrefixOf_iff_prefix] using hp
      | succ m =>
        intro hcontra
        exact hmin m (by omega) (by simpa using hcontra)

/-! ### The removal loop -/

theorem cleanLoop_eq_none (s : List Char) (h : findIdx openTag s = none) :
    cleanLoop s = s := by
  unfold cleanLoop
  split
  · rfl
  next start heq =>
    rw [heq] at h
    exact absurd h (by simp)

theorem cleanLoop_eq_noclose (s : List Char) (start : ℕ)
    (h1 : findIdx openTag s = some start)
    (h2 : findIdx closeTag (s.drop start) = none) :
    cleanLoop s = s := by
  unfold cleanLoop
  split
  · rfl
  next start' heq =>
    rw [h1] at heq
    cases heq
    split
    · rfl
    next idx heq2 =>
      rw [h2] at heq2
      exact absurd heq2 (by simp)

theorem cleanLoop_eq_step (s : List Char) (start idx : ℕ)
    (h1 : findIdx openTag s = some start)
    (h2 : findIdx closeTag (s.drop start) = some idx) :
    cleanLoop s = cleanLoop (s.take start ++ s.drop (start + idx + closeTag.length)) := by
  conv_lhs => unfold cleanLoop
  split
  next heq => rw [heq] at h1; exact absurd h1 (by simp)
  next start' heq =>
    rw [h1] at heq
    cases heq
    split
    next heq2 => rw [heq2] at h2; exact absurd h2 (by simp)
    next idx' heq2 =>
      rw [h2] at heq2
      cases heq2
      rfl

theorem cleanLoop_noPair : ∀ (n : ℕ) (s : List Char), s.length ≤ n →
    noThinkPair (cleanLoop s) := by
  intro n
  induction n with
  | zero =>
    intro s hs
    have : s = [] := List.length_eq_zero.mp (Nat.le_zero.mp hs)
    subst this
    rw [cleanLoop_eq_none [] (by decide)]
    intro i j hoi _
    exact absurd hoi (by simp [List.drop_nil, List.prefix_nil, openTag])
  | succ n ih =>
    intro s hs
    cases ho : findIdx openTag s with
    | none =>
      rw [cleanLoop_eq_none s ho]
      intro i j hoi _
      exact absurd hoi (findIdx_none _ _ ho i)
    | some start =>
      cases hc : findIdx closeTag (s.drop start) with
      | none =>
        rw [cleanLoop_eq_noclose s start ho hc]
        intro i j hoi hcj
        have hmin := (findIdx_some _ _ _ ho).2
        have hstart_le_i : start ≤ i := by
          by_contra hlt
          exact hmin i (by omega) hoi
        have hj_lt : j < start := by
          by_contra hge
          have : closeTag <+: (s.drop start).drop (j - start) := by
            have hdd : (s.drop start).drop (j - start) = s.drop j := by
              rw [List.drop_drop]
              congr 1
              omega
            rw [hdd]
            exact hcj
          exact findIdx_none _ _ hc (j - start) this
        omega
      | some idx =>
        rw [cleanLoop_eq_step s start idx ho hc]
        apply ih
        have hopen : openTag.length = 7 := rfl
        have hb1 : openTag <+: s.drop start := (findIdx_some _ _ _ ho).1
        have hb1' : (7 : ℕ) ≤ (s.drop start).length := by
          have := hb1.length_le
          simpa [hopen] using this
        have hlend : (s.drop start).length = s.length - start := List.length_drop start s
        simp only [List.length_append, List.length_take, List.length_drop]
        have hclosel : closeTag.length = 8 := rfl
        omega

theorem cleanLoop_fix (s : List Char) (h : noThinkPair s) : cleanLoop s = s := by
  cases ho : findIdx openTag s with
  | none => exact cleanLoop_eq_none s ho
  | some start =>
    cases hc : findIdx closeTag (s.drop start) with
    | none => exact cleanLoop_eq_noclose s start ho hc
    | some idx =>
      exfalso
      have hopen := (findIdx_some _ _ _ ho).1
      have hclose := (findIdx_some _ _ _ hc).1
      rw [List.drop_drop] at hclose
      exact absurd (h start (start + idx) hopen hclose) (by omega)

/-! ### Trimming -/

theorem trimTrail_eq (l : List Char) :
    trimTrail l ++ (l.reverse.takeWhile goIsSpace).reverse = l := by
  unfold trimTrail
  rw [← List.reverse_append, List.takeWhile_append_dropWhile, List.reverse_reverse]

theorem trimChars_within (l : List Char) :
    ∃ a b, l = a ++ trimChars l ++ b := by
  refine ⟨l.takeWhile goIsSpace,
    ((l.dropWhile goIsSpace).reverse.takeWhile goIsSpace).reverse, ?_⟩
  unfold trimChars trimLead
  rw [List.append_assoc, trimTrail_eq, List.takeWhile_append_dropWhile]

theorem prefix_extend {α : Type} {p u v : List α} (h : p <+: u) : p <+: u ++ v := by
  obtain ⟨w, hw⟩ := h
  exact ⟨w ++ v, by rw [← List.append_assoc, hw]⟩

theorem noPair_of_within (a t b : List Char) (h : noThinkPair (a ++ t ++ b)) :
    noThinkPair t := by
  have lift : ∀ (pat : List Char) (k : ℕ), pat ≠ [] → pat <+: t.drop k →
      pat <+: (a ++ t ++ b).drop (a.length + k) := by
    intro pat k hne hp
    have hk : k ≤ t.length := by
      by_contra hgt
      rw [List.drop_eq_nil_of_le (by omega)] at hp
      exact hne (List.prefix_nil.mp hp)
    rw [List.append_assoc]
    rw [List.drop_append, List.drop_append_of_le_length hk]
    exact prefix_extend hp
  intro i j hoi hcj
  have := h (a.length + i) (a.length + j)
    (lift openTag i (by decide) hoi) (lift closeTag j (by decide) hcj)
  omega

theorem noPair_trim (l : List Char) (h : noThinkPair l) :
    noThinkPair (trimChars l) := by
  obtain ⟨a, b, hab⟩ := trimChars_within l
  exact noPair_of_within a _ b (hab ▸ h)

theorem dropWhile_self_idem (p : Char → Bool) (l : List Char) :
    (l.dropWhile p).dropWhile p = l.dropWhile p := by
  induction l with
  | nil => rfl
  | cons c cs ih =>
    by_cases hc : p c
    · simp [List.dropWhile_cons, hc, ih]
    · simp [List.dropWhile_cons, hc]

theorem dropWhile_prefix_fixed {p : Char → Bool} {u v : List Char}
    (hv : v.dropWhile p = v) (huv : u <+: v) : u.dropWhile p = u := by
  cases u with
  | nil => rfl
  | cons c cs =>
    obtain ⟨w, hw⟩ := huv
    by_cases hc : p c
    · exfalso
      have hlen : ((cs ++ w).dropWhile p).length ≤ (cs ++ w).length :=
        (List.dropWhile_suffix p).sublist.length_le
      rw [← hw, List.cons_append, List.dropWhile_cons] at hv
      simp only [hc, if_true] at hv
      have := congrArg List.length hv
      simp at this
      simp [List.length_append] at hlen
      omega
    · simp [List.dropWhile_cons, hc]

theorem trimTrail_idem (l : List Char) : trimTrail (trimTrail l) = trimTrail l := by
  unfold trimTrail
  rw [List.reverse_reverse, dropWhile_self_idem]

theorem trimChars_idem (l : List Char) : trimChars (trimChars l) = trimChars l := by
  have hlead : trimLead (trimChars l) = trimChars l := by
    unfold trimChars trimLead
    apply dropWhile_prefix_fixed (dropWhile_self_idem goIsSpace l)
    exact ⟨(((l.dropWhile goIsSpace).reverse.takeWhile goIsSpace)).reverse,
      trimTrail_eq (l.dropWhile goIsSpace)⟩
  show trimTrail (trimLead (trimChars l)) = trimChars l
  rw [hlead]
  show trimTrail (trimTrail (trimLead l)) = trimTrail (trimLead l)
  exact trimTrail_idem _

theorem cleanResponse_idem_aux (s : String) :
    cleanResponse (cleanResponse s) = cleanResponse s := by
  show (⟨trimChars (cleanLoop (trimChars (cleanLoop s.data)))⟩ : String) =
    ⟨trimChars (cleanLoop s.data)⟩
  have h1 : noThinkPair (cleanLoop s.data) :=
    cleanLoop_noPair s.data.length s.data (le_refl _)
  have h2 : noThinkPair (trimChars (cleanLoop s.data)) := noPair_trim _ h1
  rw [cleanLoop_fix _ h2, trimChars_idem]

/-! ### Truncation -/

theorem truncate_le (text : String) (N : ℕ) (h : CountWords text ≤ N) :
    TruncateToWordLimit text N = (text, CountWords text) := by
  unfold TruncateToWordLimit
  by_cases he : text = ""
  · subst he
    simp [CountWords, fields, wordsAux]
  · simp only [he, if_false]
    simp only [CountWords] at h
    simp [h, CountWords]

theorem truncate_gt (text : String) (N : ℕ) (h : N < CountWords text) :
    TruncateToWordLimit text N =
      (joinSpace ((fields text).take N) ++ truncationMarker, N) := by
  have he : text ≠ "" := by
    intro he
    rw [he] at h
    simp [CountWords, fields, wordsAux] at h
  unfold TruncateToWordLimit
  simp only [CountWords] at h
  simp [he, Nat.not_le.mpr h]

theorem fields_props (t : String) :
    ∀ w ∈ wordsAux [] t.data, w ≠ [] ∧ ∀ c ∈ w, goIsSpace c = false :=
  wordsAux_mem t.data [] (by simp)

theorem fields_append_marker (ws : List String)
    (hws : ∀ w ∈ ws, w.data ≠ [] ∧ ∀ c ∈ w.data, goIsSpace c = false) :
    fields (joinSpace ws ++ truncationMarker) = ws ++ fields truncationMarker := by
  unfold fields
  rw [String.data_append, joinSpace_data]
  rw [wordsAux_join truncationMarker.data (Or.inr ⟨'\n', _, rfl, rfl⟩)
    (ws.map String.data) ?side]
  case side =>
    intro w hw
    obtain ⟨u, hu, rfl⟩ := List.mem_map.mp hw
    exact hws u hu
  rw [List.map_append, List.map_map]
  congr 1
  have : (fun w : List Char => (⟨w⟩ : String)) ∘ String.data = id := by
    funext s
    exact string_mk_data s
  rw [this, List.map_id]

theorem truncate_fields (text : String) (N : ℕ) (h : N < CountWords text) :
    fields (TruncateToWordLimit text N).1 =
      (fields text).take N ++ fields truncationMarker := by
  rw [truncate_gt text N h]
  apply fields_append_marker
  intro w hw
  have hw' : w ∈ fields text := List.mem_of_mem_take hw
  obtain ⟨u, hu, rfl⟩ := List.mem_map.mp hw'
  exact fields_props text u hu

/-- Claim C4: `TruncateToWordLimit` returns the input unchanged (reporting its
word count, appending no marker) when it has at most `N` words; otherwise it
returns exactly the first `N` words of the original content followed by the
fixed truncation marker and reports `N` words kept; the reported kept count
never exceeds `N`. -/
theorem claim_C4_truncateToWordLimit (text : String) (N : ℕ) :
    (CountWords text ≤ N → TruncateToWordLimit text N = (text, CountWords text)) ∧
    (N < CountWords text →
      TruncateToWordLimit text N =
        (joinSpace ((fields text).take N) ++ truncationMarker, N) ∧
      fields (TruncateToWordLimit text N).1 =
        (fields text).take N ++ fields truncationMarker) ∧
    (TruncateToWordLimit text N).2 = min (CountWords text) N :=
  ⟨truncate_le text N,
   fun h => ⟨truncate_gt text N h, truncate_fields text N h⟩,
   truncate_snd text N⟩

theorem claim_C4_witness :
    CountWords "alpha beta gamma" ≤ 5 ∧
    TruncateToWordLimit "alpha beta gamma" 5 =
      ("alpha beta gamma", CountWords "alpha beta gamma") ∧
    2 < CountWords "alpha beta gamma" ∧
    fields (TruncateToWordLimit "alpha beta gamma" 2).1 =
      (fields "alpha beta gamma").take 2 ++ fields truncationMarker :=
  ⟨by decide,
   (claim_C4_truncateToWordLimit "alpha beta gamma" 5).1 (by decide),
   by decide,
   ((claim_C4_truncateToWordLimit "alpha beta gamma" 2).2.1 (by decide)).2⟩

/-- Claim C3: `SplitContent` preserves all four sections (reporting their exact
combined word count) when the combined input is within `MaxInputWords`; the
number of original-content words retained across the returned sections never
exceeds `MaxInputWords`; and (whenever the branch section alone is within the
budget, which covers the entire within-budget case and the ordinary overflow
case) the word count `SplitContent` reports equals that retained count. -/
theorem claim_C3_splitContent (d b r f : String) :
    (CountWords d + CountWords b + CountWords r + CountWords f ≤ MaxInputWords →
      SplitContent d b r f =
        (d, b, r, f, CountWords d + CountWords b + CountWords r + CountWords f)) ∧
    SplitContentKept d b r f ≤ MaxInputWords ∧
    (CountWords b < MaxInputWords →
      (SplitContent d b r f).2.2.2.2 = SplitContentKept d b r f) := by
  refine ⟨?_, ?_, ?_⟩
  · intro h
    unfold SplitContent
    simp [h]
  · unfold SplitContentKept
    by_cases h : CountWords d + CountWords b + CountWords r + CountWords f ≤ MaxInputWords
    · simp [h]
    · simp only [h, if_false]
      by_cases hb : CountWords b < MaxInputWords
      · simp only [hb, if_true]
        have hd := truncate_snd d (3 * (MaxInputWords - CountWords b) / 5)
        have hr := truncate_snd r
          (MaxInputWords - CountWords b - 3 * (MaxInputWords - CountWords b) / 5 -
            (MaxInputWords - CountWords b) / 4)
        have hf := truncate_snd f ((MaxInputWords - CountWords b) / 4)
        simp only [MaxInputWords] at *
        omega
      · simp only [hb, if_false]
        have hd := truncate_snd d (3 * (MaxInputWords - MaxInputWords / 4) / 5)
        have hr := truncate_snd r
          (MaxInputWords - MaxInputWords / 4 -
            3 * (MaxInputWords - MaxInputWords / 4) / 5 -
            (MaxInputWords - MaxInputWords / 4) / 4)
        have hf := truncate_snd f ((MaxInputWords - MaxInputWords / 4) / 4)
        have hbk := truncate_snd b (MaxInputWords / 4)
        simp only [MaxInputWords] at *
        omega
  · intro hb
    unfold SplitContent SplitContentKept
    by_cases h : CountWords d + CountWords b + CountWords r + CountWords f ≤ MaxInputWords
    · simp [h]
    · simp only [h, if_false, hb, if_true]

/-- Claim C5: thinking-block stripping: `cleanResponse` is idempotent; with no
opening delimiter the input is only whitespace-trimmed; with an unterminated
opening delimiter (no closing delimiter at or after it) nothing is stripped,
only trimmed; and with a complete pair the loop removes the leftmost
delimited span and restarts on the remainder. -/
theorem claim_C5_cleanResponse (s : String) :
    cleanResponse (cleanResponse s) = cleanResponse s ∧
    (findIdx openTag s.data = none → cleanResponse s = trimSpace s) ∧
    (∀ start, findIdx openTag s.data = some start →
      findIdx closeTag (s.data.drop start) = none →
      cleanResponse s = trimSpace s) ∧
    (∀ start idx, findIdx openTag s.data = some start →
      findIdx closeTag (s.data.drop start) = some idx →
      cleanResponse s =
        cleanResponse
          ⟨s.data.take start ++ s.data.drop (start + idx + closeTag.length)⟩) := by
  refine ⟨cleanResponse_idem_aux s, ?_, ?_, ?_⟩
  · intro h
    show (⟨trimChars (cleanLoop s.data)⟩ : String) = ⟨trimChars s.data⟩
    rw [cleanLoop_eq_none _ h]
  · intro start h1 h2
    show (⟨trimChars (cleanLoop s.data)⟩ : String) = ⟨trimChars s.data⟩
    rw [cleanLoop_eq_noclose _ _ h1 h2]
  · intro start idx h1 h2
    show (⟨trimChars (cleanLoop s.data)⟩ : String) = _
    rw [cleanLoop_eq_step _ _ _ h1 h2]
    rfl

theorem claim_C5_witness :
    (findIdx openTag "plain".data = none ∧
      cleanResponse "plain" = trimSpace "plain") ∧
    (findIdx openTag "a<think>b".data = some 1 ∧
      findIdx closeTag ("a<think>b".data.drop 1) = none ∧
      cleanResponse "a<think>b" = trimSpace "a<think>b") ∧
    (findIdx openTag "x<think>y</think>z".data = some 1 ∧
      findIdx closeTag ("x<think>y</think>z".data.drop 1) = some 8 ∧
      cleanResponse "x<think>y</think>z" =
        cleanResponse ⟨"x<think>y</think>z".data.take 1 ++
          "x<think>y</think>z".data.drop (1 + 8 + closeTag.length)⟩) :=
  ⟨⟨by decide, (claim_C5_cleanResponse "plain").2.1 (by decide)⟩,
   ⟨by decide, by decide,
    (claim_C5_cleanResponse "a<think>b").2.2.1 1 (by decide) (by decide)⟩,
   ⟨by decide, by decide,
    (claim_C5_cleanResponse "x<think>y</think>z").2.2.2 1 8 (by decide) (by decide)⟩⟩

/-! ### String token disequalities (for the flag-form theorems) -/

theorem string_data_inj {a b : String} (h : a.data = b.data) : a = b := by
  cases a
  cases b
  exact congrArg String.mk h

theorem longform_ne_short {n sh : String} (hn : n ≠ "") (hsh : sh.length = 1) :
    ("--" ++ n : String) ≠ "-" ++ sh := by
  intro h
  have hd := congrArg String.data h
  simp only [String.data_append] at hd
  simp at hd
  have hlen := congrArg List.length hd
  have h1 : sh.data.length = 1 := hsh
  simp [h1] at hlen
  exact hn (string_data_inj (List.length_eq_zero.mp hlen))

theorem longform_inj {n m : String} (h : ("--" ++ n : String) = "--" ++ m) :
    n = m := by
  have hd := congrArg String.data h
  simp only [String.data_append] at hd
  simp at hd
  exact string_data_inj hd

theorem longform_ne_valued {n m v : String} (hnoeq : '=' ∉ n.data) :
    ("--" ++ n : String) ≠ "--" ++ m ++ "=" ++ v := by
  intro h
  have hd := congrArg String.data h
  simp only [String.data_append] at hd
  simp [List.append_assoc] at hd
  rw [hd] at hnoeq
  simp at hnoeq

/-! ### Passthrough reconstruction: shapes and per-flag emissions -/

theorem addArgs_shape (flags : List Flag) (args : List String) :
    executeGitAddPassthroughArgs flags args = "add" :: flags.flatMap addEmit ++ args := by
  unfold executeGitAddPassthroughArgs
  rw [foldl_append_emit]
  simp

theorem commitArgs_shape (flags : List Flag) (args : List String) :
    executeGitCommitPassthroughArgs flags args =
      "commit" :: flags.flatMap commitEmit ++ args := by
  unfold executeGitCommitPassthroughArgs
  rw [foldl_append_emit]
  simp

theorem logArgs_shape (flags : List Flag) (args : List String) :
    executeGitLogPassthroughArgs flags args = "log" :: flags.flatMap logEmit ++ args := by
  unfold executeGitLogPassthroughArgs
  rw [foldl_append_emit]
  simp

theorem diffArgs_shape (flags : List Flag) (args : List String) :
    executeGitDiffPassthroughArgs flags args =
      "diff" :: flags.flatMap diffEmit ++ args := by
  unfold executeGitDiffPassthroughArgs
  rw [foldl_append_emit]
  simp

theorem mergeArgs_shape (flags : List Flag) (args : List String) :
    buildMergeArgs flags args = "merge" :: flags.flatMap mergeEmit ++ args := by
  unfold buildMergeArgs
  rw [foldl_append_emit]
  simp

theorem addEmit_mem (g : Flag) (t : String) (ht : t ∈ addEmit g) :
    addSkip g.name = false ∧
    ((g.kind = .boolKind ∧ g.value = "true" ∧
       ((g.shorthand ≠ "" ∧ g.shorthand.length = 1) ∧ t = "-" ++ g.shorthand ∨
        ¬(g.shorthand ≠ "" ∧ g.shorthand.length = 1) ∧ t = "--" ++ g.name)) ∨
     (g.kind = .valuedKind ∧ g.value ≠ "" ∧
       t = "--" ++ g.name ++ "=" ++ g.value)) := by
  unfold addEmit at ht
  split_ifs at ht with h1 h2 h3 h4 <;> simp_all
  cases hk : g.kind <;> simp_all

theorem commitEmit_mem (g : Flag) (t : String) (ht : t ∈ commitEmit g) :
    commitSkip g.name = false ∧
    ((g.kind = .boolKind ∧ g.value = "true" ∧ t = "--" ++ g.name) ∨
     (g.kind = .valuedKind ∧ g.value ≠ "" ∧
       t = "--" ++ g.name ++ "=" ++ g.value)) := by
  unfold commitEmit at ht
  split_ifs at ht with h1 h2 h3 <;> simp_all
  cases hk : g.kind <;> simp_all

theorem logEmit_mem (g : Flag) (t : String) (ht : t ∈ logEmit g) :
    logSkip g.name = false ∧
    ((g.kind = .boolKind ∧ g.value = "true" ∧
       ((g.shorthand ≠ "" ∧ g.shorthand.length = 1) ∧ t = "-" ++ g.shorthand ∨
        ¬(g.shorthand ≠ "" ∧ g.shorthand.length = 1) ∧ t = "--" ++ g.name)) ∨
     (g.kind = .valuedKind ∧ g.value ≠ "" ∧
       ((g.shorthand ≠ "" ∧ g.shorthand.length = 1) ∧
          (t = "-" ++ g.shorthand ∨ t = g.value) ∨
        ¬(g.shorthand ≠ "" ∧ g.shorthand.length = 1) ∧
          t = "--" ++ g.name ++ "=" ++ g.value))) := by
  unfold logEmit at ht
  split_ifs at ht with h1 h2 h3 h4 h5 <;> simp_all
  · cases hk : g.kind <;> simp_all
  · cases hk : g.kind <;> simp_all

theorem diffEmit_mem (g : Flag) (t : String) (ht : t ∈ diffEmit g) :
    diffSkip g.name = false ∧
    ((g.kind = .boolKind ∧ g.value = "true" ∧
       ((g.shorthand ≠ "" ∧ g.shorthand.length = 1) ∧ t = "-" ++ g.shorthand ∨
        ¬(g.shorthand ≠ "" ∧ g.shorthand.length = 1) ∧ t = "--" ++ g.name)) ∨
     (g.kind = .valuedKind ∧ g.value ≠ "" ∧
       t = "--" ++ g.name ++ "=" ++ g.value)) := by
  unfold diffEmit at ht
  split_ifs at ht with h1 h2 h3 h4 <;> simp_all
  cases hk : g.kind <;> simp_all

theorem mergeEmit_mem (g : Flag) (t : String) (ht : t ∈ mergeEmit g) :
    mergeSkip g.name = false ∧
    ((g.kind = .boolKind ∧ g.value = "true" ∧
       ((g.shorthand ≠ "" ∧ g.shorthand.length = 1) ∧ t = "-" ++ g.shorthand ∨
        ¬(g.shorthand ≠ "" ∧ g.shorthand.length = 1) ∧ t = "--" ++ g.name)) ∨
     (g.kind = .valuedKind ∧ g.value ≠ "" ∧
       ((g.shorthand ≠ "" ∧ g.shorthand.length = 1) ∧
          (t = "-" ++ g.shorthand ∨ t = g.value) ∨
        ¬(g.shorthand ≠ "" ∧ g.shorthand.length = 1) ∧
          t = "--" ++ g.name ++ "=" ++ g.value))) := by
  unfold mergeEmit at ht
  split_ifs at ht with h1 h2 h3 h4 h5 <;> simp_all
  · cases hk : g.kind <;> simp_all
  · cases hk : g.kind <;> simp_all

/-- Claim C1, counterexample: on the commit subcommand's passthrough the
boolean flag `verbose` (shorthand `v`), explicitly set true, is reconstructed
as `--verbose`, not `-v`: the claim's required short form is absent and the
forbidden long form is present. -/
theorem claim_C1_counterexample :
    executeGitCommitPassthroughArgs [⟨"verbose", "v", .boolKind, "true"⟩] [] =
      ["commit", "--verbose"] ∧
    "--verbose" ∈ executeGitCommitPassthroughArgs [⟨"verbose", "v", .boolKind, "true"⟩] [] ∧
    "-v" ∉ executeGitCommitPassthroughArgs [⟨"verbose", "v", .boolKind, "true"⟩] [] := by
  decide

/-- Claim C1, amended: on the add, log, diff and merge passthroughs, an
explicitly-set-true boolean flag with a single-character shorthand is
reconstructed as its short form and its long form never appears (given that
no other flag, flag value or positional argument spells that long form); the
commit passthrough instead always emits the long form. -/
theorem claim_C1_amended_short_form (flags : List Flag) (args : List String) (f : Flag)
    (hf : f ∈ flags) (hk : f.kind = .boolKind) (hv : f.value = "true")
    (hsh : f.shorthand.length = 1) (hname : f.name ≠ "")
    (hnoeq : '=' ∉ f.name.data)
    (huniq : ∀ g ∈ flags, g.name = f.name → g = f)
    (hargs : ("--" ++ f.name) ∉ args)
    (hvals : ∀ g ∈ flags, g.value ≠ "--" ++ f.name) :
    (addSkip f.name = false →
      ("-" ++ f.shorthand) ∈ executeGitAddPassthroughArgs flags args ∧
      ("--" ++ f.name) ∉ executeGitAddPassthroughArgs flags args) ∧
    (logSkip f.name = false →
      ("-" ++ f.shorthand) ∈ executeGitLogPassthroughArgs flags args ∧
      ("--" ++ f.name) ∉ executeGitLogPassthroughArgs flags args) ∧
    (diffSkip f.name = false →
      ("-" ++ f.shorthand) ∈ executeGitDiffPassthroughArgs flags args ∧
      ("--" ++ f.name) ∉ executeGitDiffPassthroughArgs flags args) ∧
    (mergeSkip f.name = false →
      ("-" ++ f.shorthand) ∈ buildMergeArgs flags args ∧
      ("--" ++ f.name) ∉ buildMergeArgs flags args) ∧
    (commitSkip f.name = false → commitEmit f = ["--" ++ f.name]) := by
  have hshne : f.shorthand ≠ "" := by
    intro h
    rw [h] at hsh
    exact absurd hsh (by decide)
  have hcmdne : ∀ w : String, w.data.head? ≠ some '-' → ("--" ++ f.name) ≠ w := by
    intro w hw he
    have hd := congrArg String.data he
    simp only [String.data_append] at hd
    apply hw
    rw [← hd]
    rfl
  refine ⟨?_, ?_, ?_, ?_, ?_⟩
  case _ =>
    intro hs
    constructor
    · rw [addArgs_shape]
      refine List.mem_cons_of_mem _ (List.mem_append_left _ ?_)
      refine List.mem_flatMap.mpr ⟨f, hf, ?_⟩
      simp [addEmit, hs, hk, hv, hshne, hsh]
    · intro hmem
      rw [addArgs_shape] at hmem
      rcases List.mem_cons.mp hmem with hcmd | hmem
      · exact hcmdne "add" (by decide) hcmd
      rcases List.mem_append.mp hmem with hmem | hmem
      · obtain ⟨g, hg, hmemg⟩ := List.mem_flatMap.mp hmem
        have hc := addEmit_mem g _ hmemg
        rcases hc.2 with ⟨_, _, ⟨⟨_, hgl⟩, heq⟩ | ⟨hnot, heq⟩⟩ | ⟨_, _, heq⟩
        · exact longform_ne_short hname hgl heq
        · have hgf : g = f := huniq g hg (longform_inj heq).symm
          subst hgf
          exact hnot ⟨hshne, hsh⟩
        · exact longform_ne_valued hnoeq heq
      · exact hargs hmem
  case _ =>
    intro hs
    constructor
    · rw [logArgs_shape]
      refine List.mem_cons_of_mem _ (List.mem_append_left _ ?_)
      refine List.mem_flatMap.mpr ⟨f, hf, ?_⟩
      simp [logEmit, hs, hk, hv, hshne, hsh]
    · intro hmem
      rw [logArgs_shape] at hmem
      rcases List.mem_cons.mp hmem with hcmd | hmem
      · exact hcmdne "log" (by decide) hcmd
      rcases List.mem_append.mp hmem with hmem | hmem
      · obtain ⟨g, hg, hmemg⟩ := List.mem_flatMap.mp hmem
        have hc := logEmit_mem g _ hmemg
        rcases hc.2 with ⟨_, _, ⟨⟨_, hgl⟩, heq⟩ | ⟨hnot, heq⟩⟩ |
          ⟨_, _, ⟨⟨_, hgl⟩, heq | heq⟩ | ⟨_, heq⟩⟩
        · exact longform_ne_short hname hgl heq
        · have hgf : g = f := huniq g hg (longform_inj heq).symm
          subst hgf
          exact hnot ⟨hshne, hsh⟩
        · exact longform_ne_short hname hgl heq
        · exact hvals g hg heq.symm
        · exact longform_ne_valued hnoeq heq
      · exact hargs hmem
  case _ =>
    intro hs
    constructor
    · rw [diffArgs_shape]
      refine List.mem_cons_of_mem _ (List.mem_append_left _ ?_)
      refine List.mem_flatMap.mpr ⟨f, hf, ?_⟩
      simp [diffEmit, hs, hk, hv, hshne, hsh]
    · intro hmem
      rw [diffArgs_shape] at hmem
      rcases List.mem_cons.mp hmem with hcmd | hmem
      · exact hcmdne "diff" (by decide) hcmd
      rcases List.mem_append.mp hmem with hmem | hmem
      · obtain ⟨g, hg, hmemg⟩ := List.mem_flatMap.mp hmem
        have hc := diffEmit_mem g _ hmemg
        rcases hc.2 with ⟨_, _, ⟨⟨_, hgl⟩, heq⟩ | ⟨hnot, heq⟩⟩ | ⟨_, _, heq⟩
        · exact longform_ne_short hname hgl heq
        · have hgf : g = f := huniq g hg (longform_inj heq).symm
          subst hgf
          exact hnot ⟨hshne, hsh⟩
        · exact longform_ne_valued hnoeq heq
      · exact hargs hmem
  case _ =>
    intro hs
    constructor
    · rw [mergeArgs_shape]
      refine List.mem_cons_of_mem _ (List.mem_append_left _ ?_)
      refine List.mem_flatMap.mpr ⟨f, hf, ?_⟩
      simp [mergeEmit, hs, hk, hv, hshne, hsh]
    · intro hmem
      rw [mergeArgs_shape] at hmem
      rcases List.mem_cons.mp hmem with hcmd | hmem
      · exact hcmdne "merge" (by decide) hcmd
      rcases List.mem_append.mp hmem with hmem | hmem
      · obtain ⟨g, hg, hmemg⟩ := List.mem_flatMap.mp hmem
        have hc := mergeEmit_mem g _ hmemg
        rcases hc.2 with ⟨_, _, ⟨⟨_, hgl⟩, heq⟩ | ⟨hnot, heq⟩⟩ |
          ⟨_, _, ⟨⟨_, hgl⟩, heq | heq⟩ | ⟨_, heq⟩⟩
        · exact longform_ne_short hname hgl heq
        · have hgf : g = f := huniq g hg (longform_inj heq).symm
          subst hgf
          exact hnot ⟨hshne, hsh⟩
        · exact longform_ne_short hname hgl heq
        · exact hvals g hg heq.symm
        · exact longform_ne_valued hnoeq heq
      · exact hargs hmem
  case _ =>
    intro hs
    simp [commitEmit, hs, hk, hv]

theorem claim_C1_witness :
    ("-v" ∈ executeGitAddPassthroughArgs
        [⟨"verbose", "v", .boolKind, "true"⟩] ["notes.txt"] ∧
      "--verbose" ∉ executeGitAddPassthroughArgs
        [⟨"verbose", "v", .boolKind, "true"⟩] ["notes.txt"]) ∧
    ("-v" ∈ executeGitLogPassthroughArgs
        [⟨"verbose", "v", .boolKind, "true"⟩] ["notes.txt"] ∧
      "--verbose" ∉ executeGitLogPassthroughArgs
        [⟨"verbose", "v", .boolKind, "true"⟩] ["notes.txt"]) :=
  ⟨(claim_C1_amended_short_form [⟨"verbose", "v", .boolKind, "true"⟩] ["notes.txt"]
      ⟨"verbose", "v", .boolKind, "true"⟩ (by decide) rfl rfl (by decide) (by decide)
      (by decide) (by decide) (by decide) (by decide)).1 (by decide),
   (claim_C1_amended_short_form [⟨"verbose", "v", .boolKind, "true"⟩] ["notes.txt"]
      ⟨"verbose", "v", .boolKind, "true"⟩ (by decide) rfl rfl (by decide) (by decide)
      (by decide) (by decide) (by decide) (by decide)).2.1 (by decide)⟩

/-- Claim C2: every passthrough reconstruction is `subcommand`, then the
per-flag emissions of exactly the explicitly-set flags in order, then the
positional arguments verbatim; each subcommand's augmentation flags are in
its skip set and a skipped flag emits nothing; a boolean flag emits nothing
unless its value is `"true"` and a valued flag emits nothing when empty;
conversely every eligible explicitly-set flag does emit. -/
theorem claim_C2_passthrough_exact (flags : List Flag) (args : List String) :
    (executeGitAddPassthroughArgs flags args =
        "add" :: flags.flatMap addEmit ++ args ∧
      executeGitCommitPassthroughArgs flags args =
        "commit" :: flags.flatMap commitEmit ++ args ∧
      executeGitLogPassthroughArgs flags args =
        "log" :: flags.flatMap logEmit ++ args ∧
      executeGitDiffPassthroughArgs flags args =
        "diff" :: flags.flatMap diffEmit ++ args ∧
      buildMergeArgs flags args = "merge" :: flags.flatMap mergeEmit ++ args) ∧
    (addSkip "all-ai" = true ∧ addSkip "force-ai" = true ∧
      addSkip "dry-run-ai" = true ∧ addSkip "ai" = true ∧
      commitSkip "no-ai" = true ∧ commitSkip "interactive" = true ∧
      commitSkip "skip-editor" = true ∧ commitSkip "ai" = true ∧
      logSkip "ai-analysis" = true ∧ logSkip "ai-timeframe" = true ∧
      diffSkip "no-ai" = true ∧
      mergeSkip "ai-help" = true ∧ mergeSkip "ai-message" = true) ∧
    (∀ g : Flag, addSkip g.name = true → addEmit g = []) ∧
    (∀ g : Flag, commitSkip g.name = true → commitEmit g = []) ∧
    (∀ g : Flag, logSkip g.name = true → logEmit g = []) ∧
    (∀ g : Flag, diffSkip g.name = true → diffEmit g = []) ∧
    (∀ g : Flag, mergeSkip g.name = true → mergeEmit g = []) ∧
    (∀ g : Flag, g.kind = .boolKind → g.value ≠ "true" →
      addEmit g = [] ∧ commitEmit g = [] ∧ logEmit g = [] ∧
      diffEmit g = [] ∧ mergeEmit g = []) ∧
    (∀ g : Flag, g.kind = .valuedKind → g.value = "" →
      addEmit g = [] ∧ commitEmit g = [] ∧ logEmit g = [] ∧
      diffEmit g = [] ∧ mergeEmit g = []) ∧
    (∀ g : Flag, g.kind = .boolKind → g.value = "true" →
      (addSkip g.name = false → addEmit g ≠ []) ∧
      (commitSkip g.name = false → commitEmit g ≠ []) ∧
      (logSkip g.name = false → logEmit g ≠ []) ∧
      (diffSkip g.name = false → diffEmit g ≠ []) ∧
      (mergeSkip g.name = false → mergeEmit g ≠ [])) ∧
    (∀ g : Flag, g.kind = .valuedKind → g.value ≠ "" →
      (addSkip g.name = false → addEmit g ≠ []) ∧
      (commitSkip g.name = false → commitEmit g ≠ []) ∧
      (logSkip g.name = false → logEmit g ≠ []) ∧
      (diffSkip g.name = false → diffEmit g ≠ []) ∧
      (mergeSkip g.name = false → mergeEmit g ≠ [])) := by
  refine ⟨⟨addArgs_shape flags args, commitArgs_shape flags args, logArgs_shape flags args,
    diffArgs_shape flags args, mergeArgs_shape flags args⟩, by decide,
    ?_, ?_, ?_, ?_, ?_, ?_, ?_, ?_, ?_⟩
  · intro g hg
    simp [addEmit, hg]
  · intro g hg
    simp [commitEmit, hg]
  · intro g hg
    simp [logEmit, hg]
  · intro g hg
    simp [diffEmit, hg]
  · intro g hg
    simp [mergeEmit, hg]
  · intro g hk hv
    refine ⟨?_, ?_, ?_, ?_, ?_⟩ <;>
      · simp only [addEmit, commitEmit, logEmit, diffEmit, mergeEmit]
        split_ifs <;> simp_all
  · intro g hk hv
    refine ⟨?_, ?_, ?_, ?_, ?_⟩ <;>
      · simp only [addEmit, commitEmit, logEmit, diffEmit, mergeEmit]
        split_ifs <;> simp_all
  · intro g hk hv
    refine ⟨?_, ?_, ?_, ?_, ?_⟩ <;>
      · intro hs
        simp only [addEmit, commitEmit, logEmit, diffEmit, mergeEmit]
        split_ifs <;> simp_all
  · intro g hk hv
    refine ⟨?_, ?_, ?_, ?_, ?_⟩ <;>
      · intro hs
        simp only [addEmit, commitEmit, logEmit, diffEmit, mergeEmit]
        split_ifs <;> simp_all

theorem claim_C2_witness :
    executeGitAddPassthroughArgs
        [⟨"update", "u", .boolKind, "true"⟩, ⟨"all-ai", "", .boolKind, "true"⟩,
         ⟨"pathspec-from-file", "", .valuedKind, ""⟩]
        ["src/a.go", "src/b.go"] =
      "add" :: ([⟨"update", "u", .boolKind, "true"⟩, ⟨"all-ai", "", .boolKind, "true"⟩,
         ⟨"pathspec-from-file", "", .valuedKind, ""⟩] : List Flag).flatMap addEmit ++
        ["src/a.go", "src/b.go"] ∧
    addEmit ⟨"all-ai", "", .boolKind, "true"⟩ = [] ∧
    commitEmit ⟨"verbose", "v", .boolKind, "false"⟩ = [] ∧
    mergeEmit ⟨"strategy", "s", .valuedKind, ""⟩ = [] ∧
    logEmit ⟨"graph", "", .boolKind, "true"⟩ ≠ [] :=
  ⟨(claim_C2_passthrough_exact _ _).1.1,
   (claim_C2_passthrough_exact [] []).2.2.1 ⟨"all-ai", "", .boolKind, "true"⟩ (by decide),
   ((claim_C2_passthrough_exact [] []).2.2.2.2.2.2.2.1
      ⟨"verbose", "v", .boolKind, "false"⟩ rfl (by decide)).2.1,
   ((claim_C2_passthrough_exact [] []).2.2.2.2.2.2.2.2.1
      ⟨"strategy", "s", .valuedKind, ""⟩ rfl rfl).2.2.2.2,
   ((claim_C2_passthrough_exact [] []).2.2.2.2.2.2.2.2.2.1
      ⟨"graph", "", .boolKind, "true"⟩ rfl rfl).2.2.1 (by decide)⟩

/-- Claim C6: a commit invocation with no explicit `-m` message, `--no-ai`
unset, and no staged changes (the staged-changes probe exits 0) reaches the
nothing-to-commit terminal state: it prints `No changes to commit`, the
wrapper exits 0, and no LLM HTTP request is issued. -/
theorem claim_C6_commit_no_staged (env : CommitEnv)
    (hrepo : env.isRepo = true)
    (hmsg : env.message = "")
    (hnoai : env.noAI = false)
    (hstage : env.allChanged = true → env.allValue = true → env.stageOk = true)
    (hquiet : env.diffCachedQuietExit = some 0) :
    (runCommitModel env).outcome = .nothingToCommit ∧
    "No changes to commit" ∈ (runCommitModel env).prints ∧
    commitExitCode (runCommitModel env).outcome = some 0 ∧
    commitIssuesHttp (runCommitModel env).outcome = false := by
  have hrun : (runCommitModel env).outcome = .nothingToCommit ∧
      "No changes to commit" ∈ (runCommitModel env).prints := by
    unfold runCommitModel
    by_cases hac : env.allChanged = true <;> by_cases hav : env.allValue = true
    · simp [hrepo, hmsg, hnoai, hquiet, hac, hav, hstage hac hav]
    all_goals simp [hrepo, hmsg, hnoai, hquiet, hac, hav]
  refine ⟨hrun.1, hrun.2, ?_, ?_⟩
  · rw [hrun.1]
    rfl
  · rw [hrun.1]
    rfl

theorem claim_C6_witness :
    (runCommitModel ⟨true, "", false, [], [], false, false, true, true, some 0⟩).outcome =
      .nothingToCommit ∧
    "No changes to commit" ∈
      (runCommitModel ⟨true, "", false, [], [], false, false, true, true, some 0⟩).prints ∧
    commitExitCode
      (runCommitModel ⟨true, "", false, [], [], false, false, true, true, some 0⟩).outcome =
      some 0 ∧
    commitIssuesHttp
      (runCommitModel ⟨true, "", false, [], [], false, false, true, true, some 0⟩).outcome =
      false :=
  claim_C6_commit_no_staged ⟨true, "", false, [], [], false, false, true, true, some 0⟩
    rfl rfl rfl (by decide) rfl

/-- Claim C7: on an `unknown command` parse error, the wrapper forwards the
entire original argument vector (`os.Args[1:]`) to the git delegate unchanged
and adopts the delegate's exit code. -/
theorem claim_C7_unknown_forwarding (env : ExecuteEnv) (msg prog : String)
    (rest : List String)
    (hparse : env.parseError = some msg)
    (hunknown : containsSubstr msg "unknown command" = true)
    (hargs : env.osArgs = prog :: rest)
    (hne : rest ≠ [])
    (hruns : env.delegateRuns = true) :
    (executeModel env).forwarded = some rest ∧
    (executeModel env).exit = env.delegateExit rest := by
  have hlen : rest.length > 0 := List.length_pos.mpr hne
  unfold executeModel
  rw [hparse, hargs]
  simp [hunknown, hruns, hlen]

theorem claim_C7_witness :
    (executeModel ⟨some "Error: unknown command \"foo\" for \"sgit\"",
        ["sgit", "foo", "--bar"], true, fun _ => 3⟩).forwarded =
      some ["foo", "--bar"] ∧
    (executeModel ⟨some "Error: unknown command \"foo\" for \"sgit\"",
        ["sgit", "foo", "--bar"], true, fun _ => 3⟩).exit = 3 :=
  claim_C7_unknown_forwarding
    ⟨some "Error: unknown command \"foo\" for \"sgit\"",
      ["sgit", "foo", "--bar"], true, fun _ => 3⟩
    "Error: unknown command \"foo\" for \"sgit\"" "sgit" ["foo", "--bar"]
    rfl (by decide) rfl (by decide) rfl

/-- Claim C8: when the AI-assisted merge attempt fails and the unmerged-paths
query reports a nonempty conflict list, the router collects exactly the
parsed unmerged paths, never issues a `git commit`, returns success (exit 0),
and prints the instructional resolve-manually-and-resume message. -/
theorem claim_C8_merge_conflicts (env : MergeEnv) (b out : String)
    (hconfig : env.configOk = true)
    (hargs : env.args = [b])
    (hmerge : env.mergeOk = false)
    (hout : env.conflictQueryOut = some out)
    (hconf : parseConflictFiles out ≠ []) :
    (runMergeWithAIModel env).conflictsCollected = parseConflictFiles out ∧
    (runMergeWithAIModel env).err = none ∧
    (∀ call ∈ (runMergeWithAIModel env).gitCalls, call.head? ≠ some "commit") ∧
    "\nPlease resolve conflicts manually and then:" ∈ (runMergeWithAIModel env).prints ∧
    "  sgit merge --continue" ∈ (runMergeWithAIModel env).prints := by
  have hlen : (parseConflictFiles out).length > 0 := List.length_pos.mpr hconf
  have hrun : runMergeWithAIModel env =
      ⟨[["branch", "--show-current"],
        buildMergeArgs env.flags env.args ++ ["--no-commit"], conflictQueryCall],
       ["Attempting to merge " ++ b ++ " into " ++ env.currentBranch ++ "...",
        "\n🚨 Merge conflicts detected!"] ++
         (if env.aiHelp then
            match env.aiHelpResponse with
            | some help =>
              ["Getting AI assistance for conflict resolution...",
               "\n=== AI MERGE CONFLICT ASSISTANCE ===", help, ""]
            | none =>
              ["Getting AI assistance for conflict resolution...",
               "Warning: Could not get AI assistance"]
          else []) ++ mergeInstructions,
       parseConflictFiles out,
       (if env.aiHelp then some (joinNewline (parseConflictFiles out)) else none),
       none⟩ := by
    unfold runMergeWithAIModel
    rw [hargs]
    simp [hconfig, hmerge, hout, hlen]
  refine ⟨by rw [hrun], by rw [hrun], ?_, ?_, ?_⟩
  · intro call hcall
    rw [hrun] at hcall
    simp only [List.mem_cons, List.mem_singleton] at hcall
    rcases hcall with rfl | rfl | rfl | hfalse
    · decide
    · rw [mergeArgs_shape]
      simp
    · decide
    · simp at hfalse
  · rw [hrun]
    simp [mergeInstructions]
  · rw [hrun]
    simp [mergeInstructions]

theorem claim_C8_witness :
    (runMergeWithAIModel ⟨true, [], ["feature"], "main", false,
        some "a.txt\nb.txt\nc.txt", false, false, none, none⟩).conflictsCollected =
      parseConflictFiles "a.txt\nb.txt\nc.txt" ∧
    (runMergeWithAIModel ⟨true, [], ["feature"], "main", false,
        some "a.txt\nb.txt\nc.txt", false, false, none, none⟩).err = none ∧
    (∀ call ∈ (runMergeWithAIModel ⟨true, [], ["feature"], "main", false,
        some "a.txt\nb.txt\nc.txt", false, false, none, none⟩).gitCalls,
      call.head? ≠ some "commit") ∧
    "\nPlease resolve conflicts manually and then:" ∈
      (runMergeWithAIModel ⟨true, [], ["feature"], "main", false,
        some "a.txt\nb.txt\nc.txt", false, false, none, none⟩).prints ∧
    "  sgit merge --continue" ∈
      (runMergeWithAIModel ⟨true, [], ["feature"], "main", false,
        some "a.txt\nb.txt\nc.txt", false, false, none, none⟩).prints :=
  claim_C8_merge_conflicts
    ⟨true, [], ["feature"], "main", false, some "a.txt\nb.txt\nc.txt",
      false, false, none, none⟩
    "feature" "a.txt\nb.txt\nc.txt" rfl rfl rfl rfl (by decide)

/-- Claim C9, counterexample: an unrecognized language code coming from the
config file (command-line flag unset) falls back to the default `en` with
*no* warning: `getEffectiveLanguage`'s warning flag is false, contradicting
the claim that the fallback always surfaces a warning. -/
theorem claim_C9_counterexample :
    getEffectiveLanguage "" "xx" = ("en", false) ∧
    (getEffectiveLanguage "" "xx").2 = false := by
  constructor <;> decide

/-- Claim C9, amended: a configured language with a known non-default mapping
(e.g. `ko`) makes every prompt passed through `addLanguageInstruction` start
with a directive naming that language and instructing the model to respond
entirely in it; an unrecognized code falls back to the default `en`
(producing no directive), with the warning surfaced only when the code came
from the command-line flag — an unrecognized config-file code falls back
silently. -/
theorem claim_C9_amended_language (p : String) :
    (∀ code name, languageNames code = some name → code ≠ "" → code ≠ "en" →
      addLanguageInstruction code p = languageDirective name ++ p) ∧
    languageNames "ko" = some "Korean (한국어)" ∧
    getEffectiveLanguage "ko" "" = ("ko", false) ∧
    (∀ s c, s ≠ "" → isValidLanguageCode (toLowerTrim s) = false →
      getEffectiveLanguage s c = ("en", true)) ∧
    (∀ c, c ≠ "" → isValidLanguageCode (toLowerTrim c) = false →
      getEffectiveLanguage "" c = ("en", false)) ∧
    addLanguageInstruction "en" p = p ∧
    addLanguageInstruction "" p = p := by
  refine ⟨?_, by decide, by decide, ?_, ?_, ?_, ?_⟩
  · intro code name hmap hne hnen
    simp [addLanguageInstruction, hne, hnen, hmap]
  · intro s c hs hv
    simp [getEffectiveLanguage, hs, hv]
  · intro c hc hv
    simp [getEffectiveLanguage, hc, hv]
  · simp [addLanguageInstruction]
  · simp [addLanguageInstruction]

theorem claim_C9_witness :
    addLanguageInstruction "ko" "Generate a commit message." =
      languageDirective "Korean (한국어)" ++ "Generate a commit message." ∧
    getEffectiveLanguage "XX" "" = ("en", true) ∧
    getEffectiveLanguage "" "xx" = ("en", false) :=
  ⟨(claim_C9_amended_language "Generate a commit message.").1 "ko" "Korean (한국어)"
      (by decide) (by decide) (by decide),
   (claim_C9_amended_language "").2.2.2.1 "XX" "" (by decide) (by decide),
   (claim_C9_amended_language "").2.2.2.2.1 "xx" (by decide) (by decide)⟩

/-- Claim C10: a commit invocation with `--all`/`-a` explicitly set true first
stages via `git add -u`, before the AI-versus-passthrough decision (the
staging call is recorded whatever branch follows); and the flag is forwarded
to the final AI-path `git commit` invocation, which starts
`commit -m <message>` and contains `--all`. -/
theorem claim_C10_commit_all (env : CommitEnv) (msg : String) (flags : List Flag)
    (hrepo : env.isRepo = true)
    (hac : env.allChanged = true) (hav : env.allValue = true)
    (hall : (⟨"all", "a", .boolKind, "true"⟩ : Flag) ∈ flags) :
    (runCommitModel env).stagingCalls = [["add", "-u"]] ∧
    "Staging all modified and deleted files..." ∈ (runCommitModel env).prints ∧
    executeGitCommitWithFlagsArgs msg flags =
      "commit" :: "-m" :: msg :: flags.flatMap commitWithFlagsEmit ∧
    "--all" ∈ executeGitCommitWithFlagsArgs msg flags := by
  have key : (runCommitModel env).stagingCalls = [["add", "-u"]] ∧
      "Staging all modified and deleted files..." ∈ (runCommitModel env).prints := by
    unfold runCommitModel
    simp only [hrepo, hac, hav, Bool.not_true, Bool.and_self]
    cases env.diffCachedQuietExit <;>
      split_ifs <;>
      simp_all <;>
      split_ifs <;>
      simp_all
  refine ⟨key.1, key.2, ?_, ?_⟩
  · unfold executeGitCommitWithFlagsArgs
    rw [foldl_append_emit]
    rfl
  · unfold executeGitCommitWithFlagsArgs
    rw [foldl_append_emit]
    refine List.mem_append_right _ (List.mem_flatMap.mpr
      ⟨⟨"all", "a", .boolKind, "true"⟩, hall, ?_⟩)
    decide

theorem claim_C10_witness :
    (runCommitModel ⟨true, "", false, [⟨"all", "a", .boolKind, "true"⟩], [],
        true, true, true, true, some 1⟩).stagingCalls = [["add", "-u"]] ∧
    "Staging all modified and deleted files..." ∈
      (runCommitModel ⟨true, "", false, [⟨"all", "a", .boolKind, "true"⟩], [],
        true, true, true, true, some 1⟩).prints ∧
    executeGitCommitWithFlagsArgs "feat: x" [⟨"all", "a", .boolKind, "true"⟩] =
      "commit" :: "-m" :: "feat: x" ::
        ([⟨"all", "a", .boolKind, "true"⟩] : List Flag).flatMap commitWithFlagsEmit ∧
    "--all" ∈ executeGitCommitWithFlagsArgs "feat: x" [⟨"all", "a", .boolKind, "true"⟩] :=
  claim_C10_commit_all
    ⟨true, "", false, [⟨"all", "a", .boolKind, "true"⟩], [], true, true, true, true, some 1⟩
    "feat: x" [⟨"all", "a", .boolKind, "true"⟩] rfl rfl rfl (by decide)

end SGit
